import Mathlib

/-
Verification of the relaks-harvest core (src/index.js) against its
specification.  The development shallowly embeds the recursive resolver
(harvest / harvestNode / harvestNodes), the dispatcher shim
(renderHookComponent), the class-component protocol (renderClassComponent)
and the props resolver (getNodeProps), and proves or refutes the frozen
claims about them.
-/

namespace RelaksHarvest

/-- JavaScript scalar values that can appear as primitive nodes, context
values, prop values and provider values.  A node that is not an object
(string, number, boolean, null, undefined) is primitive. -/
inductive JVal where
  | undef
  | jnull
  | str (s : String)
  | num (n : Int)
  | bool (b : Bool)
deriving DecidableEq, Repr

/-- A context binding pushed by a provider node: pairs the context identity
(modelled as a Nat naming the context object) with the bound value.
Mirrors the object literal pushed at src/index.js lines 91-94. -/
structure Binding where
  ctype : Nat
  value : JVal
deriving DecidableEq, Repr

/-- The tree data model.  A node is either a primitive scalar, an array of
nodes, or a composite element.  Arrays (props.children given as an array,
nested child arrays, and the arrays produced by harvestNodes) are encoded
as right-nested spines arrNil / arrCons so that the type stays a plain
inductive; a well-formed array is a spine ending in arrNil.  Composite
elements are flattened by the kind their type resolves to under
getNodeType (src/index.js lines 339-351):

* tagElem: type is a string (a host/primitive tag);
* syncComp: type is a function component whose render returns out
  immediately;
* memoComp: type is a memo wrapper carrying the ReactMemo marker around a
  function component returning out; getNodeType unwraps it to the function;
* asyncComp: a relaks component whose async render returns a promise that
  settles with out after delay time units (delays model timer-based
  completion, as in the test suite);
* throwComp: a component whose render throws error e synchronously;
* rejectComp: a component whose async render returns a promise rejecting
  with e after delay time units;
* provider: type carries the ReactProvider marker; value models
  props.value and children models props.children;
* consumer: type carries the ReactContext marker; the children function is
  the echo consumer that renders the looked-up context value as a scalar;
* badFalsy: node.type is a falsy value, so getNodeType yields a falsy
  result;
* badTruthy: node.type is truthy but resolves to no recognised kind (for
  example a plain object without markers).

The children field of a component node models its props (the nested
content); component behaviour in this model does not depend on props, so
the rendering out is stored directly in the constructor. -/
inductive Node where
  | scalar (v : JVal)
  | arrNil
  | arrCons (head : Node) (tail : Node)
  | tagElem (tag : String) (children : Node)
  | syncComp (out : Node) (children : Node)
  | memoComp (out : Node) (children : Node)
  | asyncComp (delay : Nat) (out : Node) (children : Node)
  | throwComp (e : Nat) (children : Node)
  | rejectComp (delay : Nat) (e : Nat) (children : Node)
  | provider (ctype : Nat) (value : JVal) (children : Node)
  | consumer (ctype : Nat)
  | badFalsy (children : Node)
  | badTruthy (children : Node)
deriving DecidableEq, Repr

/-- Spine encoding of a list of nodes as an array node. -/
def ofListN : List Node → Node
  | [] => .arrNil
  | n :: ns => .arrCons n (ofListN ns)

/-- Decoding of an array node back to the list of its elements. -/
def toListN : Node → List Node
  | .arrCons n rest => n :: toListN rest
  | _ => []

/-- Result of getNodeType (src/index.js lines 339-351): the category a
composite node type resolves to.  funcTy covers callables, including the
result of unwrapping a memo wrapper; falsyTy is any falsy type value (the
test at line 63); otherTy is a truthy value that carries no recognised
marker and is not callable. -/
inductive NodeTy where
  | funcTy
  | providerMark (id : Nat)
  | contextMark (id : Nat)
  | tagTy (s : String)
  | falsyTy
  | otherTy
deriving DecidableEq, Repr

/-- Classification of a node by its type, mirroring getNodeType.  Arrays
have no type field, so their type is undefined (falsy).  An empty string
tag is falsy in JavaScript.  Scalars never reach getNodeType (harvestNode
returns them first); they are classified falsy here for totality. -/
def nodeTypeOf : Node → NodeTy
  | .scalar _ => .falsyTy
  | .arrNil => .falsyTy
  | .arrCons _ _ => .falsyTy
  | .tagElem s _ => if s = "" then .falsyTy else .tagTy s
  | .syncComp _ _ => .funcTy
  | .memoComp _ _ => .funcTy
  | .asyncComp _ _ _ => .funcTy
  | .throwComp _ _ => .funcTy
  | .rejectComp _ _ _ => .funcTy
  | .provider id _ _ => .providerMark id
  | .consumer id => .contextMark id
  | .badFalsy _ => .falsyTy
  | .badTruthy _ => .otherTy

/-- True exactly for composite values, for which the source takes the
`node instanceof Object` branch (src/index.js line 59); arrays are
objects. -/
def composite : Node → Bool
  | .scalar _ => false
  | _ => true

/-- Innermost-first lookup in the binding stack: getContext scans the
array from its end backward (src/index.js lines 377-382), so the match
nearest the end of the list wins. -/
def lookupLast : List Binding → Nat → Option JVal
  | [], _ => none
  | b :: rest, id =>
    match lookupLast rest id with
    | some v => some v
    | none => if b.ctype = id then some b.value else none

/-- getContext (src/index.js lines 375-385): when contextType is falsy the
result is undefined; otherwise the innermost binding for the identity, or
the identity's registered default (contextType._currentValue, modelled by
the environment D) when no binding is active. -/
def getContext (D : Nat → JVal) (contexts : List Binding) (contextType : Option Nat) : JVal :=
  match contextType with
  | none => JVal.undef
  | some id =>
    match lookupLast contexts id with
    | some v => v
    | none => D id

/-- A seed entry pushed into the bucket (src/index.js lines 74-78): comp
is the component node (capturing the component type together with its
resolved props) and result is the settled rendering the async render
produced. -/
structure Seed where
  comp : Node
  result : Node
deriving DecidableEq, Repr

/-- The JavaScript null value as a node result. -/
def nullN : Node := Node.scalar JVal.jnull

instance {e a : Type} [DecidableEq e] [DecidableEq a] : DecidableEq (Except e a) := fun x y => by
  cases x <;> cases y
  case error.error u v => exact decidable_of_iff (u = v) (by simp)
  case ok.ok u v => exact decidable_of_iff (u = v) (by simp)
  all_goals exact .isFalse (by simp)

/-- Result of harvestNode on one node.  now is an immediate (synchronous)
value; thrown is a synchronous exception; promise is a deferred result
carrying its settlement time t (delays are timer-based, so a promise
created at absolute time T with local settlement time t settles at T + t),
its outcome, and the timestamped seed-bucket pushes performed by that
chain of continuations, in the order the pushes happen. -/
inductive HRes where
  | now (n : Node)
  | thrown (e : Nat)
  | promise (t : Nat) (out : Except Nat Node) (evs : List (Nat × Seed))
deriving DecidableEq, Repr

/-- Result of mapping resolution over the elements of an array (the body
of the array branch of harvestNodes, src/index.js lines 141-157, before
the final changed / Promise.all dispatch): either every element resolved
synchronously to the spine vals, or the map threw, or at least one element
deferred and the combined result is the Promise.all join. -/
inductive GoRes where
  | vals (vs : Node)
  | thrownG (e : Nat)
  | prom (t : Nat) (out : Except Nat Node) (evs : List (Nat × Seed))
deriving DecidableEq, Repr

/-- Stable merge of two timestamped event lists: events are interleaved by
settlement time, ties keeping the left (earlier-encountered) list first.
This reconstructs the global order in which continuations of independently
resolving siblings push into the shared bucket. -/
def mergeEvs : List (Nat × Seed) → List (Nat × Seed) → List (Nat × Seed)
  | [], ys => ys
  | xs, [] => xs
  | x :: xs, y :: ys =>
    if x.1 ≤ y.1 then x :: mergeEvs xs (y :: ys)
    else y :: mergeEvs (x :: xs) ys
termination_by xs ys => xs.length + ys.length

/-- Shift all event timestamps by d: continuations created at absolute
time d see their own local event times offset by d. -/
def shiftEvs (d : Nat) (evs : List (Nat × Seed)) : List (Nat × Seed) :=
  evs.map (fun e => (e.1 + d, e.2))

/-- Combination step of the Promise.all join (src/index.js line 160) for a
head promise and the combined tail: if both fulfil, the join fulfils at
the later time with the values in positional order; if any rejects, the
join rejects with the reason of the earliest rejection (ties resolved
toward the leftmost element, as Promise.all settles with the first
rejection). -/
def allPair (t1 : Nat) (o1 : Except Nat Node) (t2 : Nat) (o2 : Except Nat Node) :
    Nat × Except Nat Node :=
  match o1, o2 with
  | .ok v, .ok vs => (max t1 t2, .ok (.arrCons v vs))
  | .error e, .ok _ => (t1, .error e)
  | .ok _, .error e => (t2, .error e)
  | .error e1, .error e2 => if t1 ≤ t2 then (t1, .error e1) else (t2, .error e2)

/-- Final dispatch of the host-element branch (src/index.js lines 108-125)
given the already-computed resolution of the children: if nothing changed
the original node is returned (null in bucket mode); otherwise the node is
cloned with the new children substituted (replaceChildren, lines 310-315,
production path of React.cloneElement), again null in bucket mode; a
deferred children resolution defers the clone. -/
def elemFinish (b : Bool) (orig : Node) (rebuild : Node → Node) (ch : Node) : HRes → HRes
  | .thrown e => .thrown e
  | .now newCh =>
    if newCh = ch then .now (if b then nullN else orig)
    else .now (if b then nullN else rebuild newCh)
  | .promise t out evs =>
    .promise t (out.map (fun newCh => if b then nullN else rebuild newCh)) evs

/-- Final dispatch of the array branch of harvestNodes (src/index.js lines
158-164) given the mapped elements: Promise.all when any element deferred,
otherwise the original array when nothing changed and the new array when
something did. -/
def arrFinish (orig : Node) : GoRes → HRes
  | .thrownG e => .thrown e
  | .vals vs => if vs = orig then .now orig else .now vs
  | .prom t out evs => .promise t out evs

/-- Structural size of a node, used as the termination measure of the
resolver. -/
def nsize : Node → Nat
  | .scalar _ => 1
  | .arrNil => 1
  | .arrCons h t => 1 + nsize h + nsize t
  | .tagElem _ ch => 1 + nsize ch
  | .syncComp out ch => 1 + nsize out + nsize ch
  | .memoComp out ch => 1 + nsize out + nsize ch
  | .asyncComp _ out ch => 1 + nsize out + nsize ch
  | .throwComp _ ch => 1 + nsize ch
  | .rejectComp _ _ ch => 1 + nsize ch
  | .provider _ _ ch => 1 + nsize ch
  | .consumer _ => 1
  | .badFalsy ch => 1 + nsize ch
  | .badTruthy ch => 1 + nsize ch

/-
A note on the context stack.  The source threads ONE mutable array through
the whole recursion: a provider pushes its binding, recurses, and pops
(src/index.js lines 91-97).  Every push and pop happens during a single
synchronous run: the array is balanced back to its previous content before
the run yields.  Promise continuations (the closure at lines 72-81)
capture the array by reference and run only after the synchronous run that
created them has finished, so at the moment a continuation executes the
array holds no bindings.  The embedding therefore passes the stack by
value during synchronous evaluation — the pop is implicit — and resumes
the continuation of an asynchronous render with the empty stack, which is
exactly the array content the continuation observes in the source.
-/

mutual

/-- harvestNode (src/index.js lines 58-126).  Scalars are returned as-is
(null in bucket mode).  A falsy type yields null (line 64); arrays reach
this case only when passed to harvestNode directly, since their type field
is undefined.  A component node has its props resolved and is rendered: a
synchronous render is harvested through harvestNodes (line 84); a deferred
render chains a continuation that pushes a seed entry when a bucket is
active and then harvests the settled rendering through harvestNode (lines
72-81), with the context stack empty at continuation time (see the note
above) and all later times offset by the settlement time of the render.  A
provider extends the stack for its children (lines 86-97); a consumer
invokes its children function with the looked-up value (lines 98-107; the
echo consumer renders the value as a scalar, which harvestNodes returns
unchanged, inlined here); any other composite node takes the host-element
branch (lines 108-125). -/
def harvestNode (D : Nat → JVal) : Node → List Binding → Bool → HRes
  | .scalar v, _, b => .now (if b then nullN else .scalar v)
  | .arrNil, _, _ => .now nullN
  | .arrCons _ _, _, _ => .now nullN
  | .badFalsy _, _, _ => .now nullN
  | .tagElem tag ch, ctx, b =>
    if tag = "" then .now nullN
    else elemFinish b (.tagElem tag ch) (Node.tagElem tag) ch (harvestNodes D ch ctx b)
  | .badTruthy ch, ctx, b =>
    elemFinish b (.badTruthy ch) Node.badTruthy ch (harvestNodes D ch ctx b)
  | .syncComp out _, ctx, b => harvestNodes D out ctx b
  | .memoComp out _, ctx, b => harvestNodes D out ctx b
  | .asyncComp d out ch, _ctx, b =>
    let sd : List (Nat × Seed) :=
      if b then [(d, ⟨Node.asyncComp d out ch, out⟩)] else []
    match harvestNode D out [] b with
    | .now v => .promise d (.ok v) sd
    | .thrown e => .promise d (.error e) sd
    | .promise t o evs => .promise (d + t) o (sd ++ shiftEvs d evs)
  | .throwComp e _, _, _ => .thrown e
  | .rejectComp d e _, _, _ => .promise d (.error e) []
  | .provider id v ch, ctx, b => harvestNodes D ch (ctx ++ [⟨id, v⟩]) b
  | .consumer id, ctx, b =>
    .now (if b then nullN else .scalar (getContext D ctx (some id)))
termination_by n _ _ => 3 * nsize n
decreasing_by all_goals ((try simp only [nsize]); omega)

/-- harvestNodes (src/index.js lines 137-165).  A non-array argument is
delegated to harvestNode (line 139).  For an array, resolution is mapped
over the elements (harvestGo); if any element became deferred the whole
resolution is the Promise.all join; otherwise the original array is
returned when no element changed and the newly built array when one did
(arrFinish). -/
def harvestNodes (D : Nat → JVal) : Node → List Binding → Bool → HRes
  | .arrNil, ctx, b => arrFinish .arrNil (harvestGo D .arrNil ctx b)
  | .arrCons h t, ctx, b => arrFinish (.arrCons h t) (harvestGo D (.arrCons h t) ctx b)
  | n, ctx, b => harvestNode D n ctx b
termination_by n _ _ => 3 * nsize n + 2
decreasing_by all_goals ((try simp only [nsize]); omega)

/-- The mapping pass inside the array branch of harvestNodes (src/index.js
lines 143-157) combined with the Promise.all join: each element is
resolved (nested arrays recurse through harvestNodes, line 146, which the
element dispatch at lines 145-149 amounts to); a synchronous exception
aborts the map; deferred elements are joined with allPair and the sibling
event streams are merged by settlement time.  A non-arrCons argument marks
the end of the spine. -/
def harvestGo (D : Nat → JVal) : Node → List Binding → Bool → GoRes
  | .arrCons n rest, ctx, b =>
    match harvestNodes D n ctx b with
    | .thrown e => .thrownG e
    | .now v =>
      match harvestGo D rest ctx b with
      | .thrownG e => .thrownG e
      | .vals vs => .vals (.arrCons v vs)
      | .prom t out evs => .prom t (out.map (fun vs => .arrCons v vs)) evs
    | .promise t1 o1 e1 =>
      match harvestGo D rest ctx b with
      | .thrownG e => .thrownG e
      | .vals vs => .prom t1 (o1.map (fun v => .arrCons v vs)) e1
      | .prom t2 o2 e2 =>
        let p := allPair t1 o1 t2 o2
        .prom p.1 p.2 (mergeEvs e1 e2)
  | _, _, _ => .vals .arrNil
termination_by n _ _ => 3 * nsize n + 1
decreasing_by all_goals ((try simp only [nsize]); omega)

end

/-- Final outcome payload of a top-level harvest: the resolved tree, or
the seed list when seed collection was requested. -/
inductive HOut where
  | tree (n : Node)
  | seedList (seeds : List Seed)
deriving DecidableEq, Repr

/-- Observable record of one top-level harvest call: the settled outcome
of the returned future, its settlement time, the value the process-wide
harvesting flag is set to on entry, and its value after the future has
settled (through the then/catch pair at src/index.js lines 31-37). -/
structure HarvestRun where
  outcome : Except Nat HOut
  settle : Nat
  flagDuring : Bool
  flagFinal : Bool
deriving DecidableEq, Repr

/-- harvest (src/index.js lines 17-38).  The bucket is created when
options.seeds is set; the flag is raised; harvestNode runs on the root
with an empty stack; a synchronous exception is caught and turned into a
rejected future; the then continuation lowers the flag and substitutes the
bucket for the result in seed mode; the catch continuation lowers the flag
and rethrows the original reason.  In seed mode the bucket content at
settlement is the full event list, since every push happens no later than
the settlement of the chain that performed it. -/
def harvest (D : Nat → JVal) (node : Node) (seeds : Bool) : HarvestRun :=
  match harvestNode D node [] seeds with
  | .thrown e =>
    { outcome := .error e, settle := 0, flagDuring := true, flagFinal := false }
  | .now v =>
    { outcome := .ok (if seeds then .seedList [] else .tree v)
      settle := 0, flagDuring := true, flagFinal := false }
  | .promise t (.ok v) evs =>
    { outcome := .ok (if seeds then .seedList (evs.map Prod.snd) else .tree v)
      settle := t, flagDuring := true, flagFinal := false }
  | .promise t (.error e) _ =>
    { outcome := .error e, settle := t, flagDuring := true, flagFinal := false }

/-- Resolved value of an element that participates in a Promise.all join:
an immediate value, or the fulfilment value of a deferred element.  The
remaining cases (a rejection or a synchronous exception) never contribute
a value to a fulfilled join and are mapped to null. -/
def resVal : HRes → Node
  | .now n => n
  | .promise _ (.ok n) _ => n
  | .promise _ (.error _) _ => nullN
  | .thrown _ => nullN

/-- True when a resolution is deferred. -/
def isProm : HRes → Bool
  | .promise _ _ _ => true
  | _ => false

/-- True when a resolution threw synchronously. -/
def isThrownR : HRes → Bool
  | .thrown _ => true
  | _ => false

/-- True for array spine constructors. -/
def isArrN : Node → Bool
  | .arrNil => true
  | .arrCons _ _ => true
  | _ => false

/-- Trees made only of scalars, well-formed child arrays and host elements
with a nonempty tag: no component of any kind, no provider, no consumer,
no malformed node. -/
def cfree : Node → Bool
  | .scalar _ => true
  | .arrNil => true
  | .arrCons h t => cfree h && cfree t && isArrN t
  | .tagElem tag ch => if tag = "" then false else cfree ch
  | _ => false

/-- Trees in which no reachable rendering is asynchronous: no async
component and no rejecting component anywhere in the tree or in the
renderings of its synchronous components. -/
def asyncFree : Node → Bool
  | .scalar _ => true
  | .arrNil => true
  | .arrCons h t => asyncFree h && asyncFree t
  | .tagElem _ ch => asyncFree ch
  | .syncComp out _ => asyncFree out
  | .memoComp out _ => asyncFree out
  | .asyncComp _ _ _ => false
  | .throwComp _ _ => true
  | .rejectComp _ _ _ => false
  | .provider _ _ ch => asyncFree ch
  | .consumer _ => true
  | .badFalsy _ => true
  | .badTruthy ch => asyncFree ch

/-- Adjacent-pairs check that a timestamped event list is ordered by
non-decreasing settlement time. -/
def sortedEvs : List (Nat × Seed) → Bool
  | [] => true
  | [_] => true
  | x :: y :: rest => if x.1 ≤ y.1 then sortedEvs (y :: rest) else false

/-- The timestamped seed events of a top-level resolution in seed mode;
empty when the root resolves synchronously (no continuation ever pushes). -/
def seedEvents (D : Nat → JVal) (n : Node) : List (Nat × Seed) :=
  match harvestNode D n [] true with
  | .promise _ _ evs => evs
  | _ => []

/-- Concrete default-value environment for the concrete evaluation
theorems: every context identity defaults to the string light, matching
the registered default of the theme context in the test suite. -/
def D0 : Nat → JVal := fun _ => JVal.str "light"

/-- Concrete failing input for the context claim: a provider binding
identity 0 to the string dark, wrapping an asynchronous component whose
settled rendering is a consumer of identity 0. -/
def c1node : Node :=
  Node.provider 0 (JVal.str "dark")
    (Node.asyncComp 1 (Node.consumer 0) (Node.scalar JVal.undef))

/-- Concrete asynchronous component settling after 2 time units with the
scalar a. -/
def seedTreeA : Node :=
  Node.asyncComp 2 (Node.scalar (JVal.str "a")) (Node.scalar JVal.undef)

/-- Concrete asynchronous component settling after 1 time unit with the
scalar b. -/
def seedTreeB : Node :=
  Node.asyncComp 1 (Node.scalar (JVal.str "b")) (Node.scalar JVal.undef)

/-- Concrete tree with two sibling asynchronous components whose delays
are in reverse encounter order. -/
def seedTree : Node :=
  Node.tagElem "div" (Node.arrCons seedTreeA (Node.arrCons seedTreeB Node.arrNil))

/-- Possible values of the process-wide current-dispatcher slot
(ReactCurrentDispatcher.current): empty, some host dispatcher, or the shim
installed by renderHookComponent. -/
inductive Slot where
  | noneSlot
  | host (id : Nat)
  | shim
deriving DecidableEq, Repr

/-- Behaviour of one invocation of a function-style component, as a
function of the dispatcher slot it observes: it can return a rendering,
return a deferred rendering, or throw. -/
inductive FuncOut where
  | ret (v : Nat)
  | retDeferred (p : Nat)
  | raises (e : Nat)
deriving DecidableEq, Repr

/-- Immediate or deferred rendering value. -/
inductive Rendered where
  | val (v : Nat)
  | deferred (p : Nat)
deriving DecidableEq, Repr

/-- Outcome of invoking the component function in the current slot
state. -/
def runFunc (f : Slot → FuncOut) (s : Slot) : Except Nat Rendered :=
  match f s with
  | .ret v => .ok (.val v)
  | .retDeferred p => .ok (.deferred p)
  | .raises e => .error e

/-- Observable record of one renderHookComponent call: the returned or
thrown result of the single synchronous invocation, and the value the
process-wide dispatcher slot holds at the moment the call returns or
throws — that is, before any deferred rendering it returned can be
awaited. -/
structure HookCallLog where
  result : Except Nat Rendered
  finalSlot : Slot
deriving DecidableEq, Repr

/-- renderHookComponent (src/index.js lines 234-300).  When the host
exposes the dispatcher slot (slotExists), the previous dispatcher is
saved, the shim is installed, the component function is invoked exactly
once observing the shim, and the finally clause restores the saved value
on every exit path — normal return, deferred return and throw alike —
before the call yields.  Without the slot the component is invoked
directly and the slot is untouched. -/
def renderHookComponent (slotExists : Bool) (f : Slot → FuncOut) (s0 : Slot) : HookCallLog :=
  if slotExists then
    let prev := s0
    let r := runFunc f Slot.shim
    { result := r, finalSlot := prev }
  else
    { result := runFunc f s0, finalSlot := s0 }

/-- JavaScript object modelled as an ordered association list of string
keys and scalar values. -/
abbrev SMap := List (String × JVal)

/-- JavaScript property read: the value at the first entry for the key,
undefined when the key is absent. -/
def jsGetM : SMap → String → JVal
  | [], _ => JVal.undef
  | e :: rest, k => if e.1 = k then e.2 else jsGetM rest k

/-- True when the object has an entry for the key. -/
def hasKeyM : SMap → String → Bool
  | [], _ => false
  | e :: rest, k => if e.1 = k then true else hasKeyM rest k

/-- JavaScript property write: updates the entry in place when the key is
present, appends a new entry otherwise. -/
def setKeyM (m : SMap) (k : String) (v : JVal) : SMap :=
  if hasKeyM m k then m.map (fun e => if e.1 = k then (k, v) else e)
  else m ++ [(k, v)]

/-- Property copy (the assign helper, src/index.js lines 325-330): every
entry of src is written into dest in order. -/
def assignM (dest src : SMap) : SMap :=
  src.foldl (fun m e => setKeyM m e.1 e.2) dest

/-- Modelled behaviour of a will-mount lifecycle method: do nothing, or
make one synchronous setState call, which the updater shim merges into
the state immediately (src/index.js lines 456-461). -/
inductive WMAct where
  | noop
  | setSt (upd : SMap)
deriving DecidableEq

/-- Description of a class-style component type: its constructor-assigned
initial state, an optional static derive-state-from-props function, the
optional will-mount methods (plain and legacy-prefixed), the static
context identity, whether the instance exposes the asynchronous-render
capability, and its render output as a function of the final state. -/
structure ClassSpec where
  initState : SMap
  hasGdsfp : Bool
  gdsfp : SMap → SMap → SMap
  cwm : Option WMAct
  cwmUnsafe : Option WMAct
  contextType : Option Nat
  asyncRender : Bool
  render : SMap → Nat

/-- Observable record of one renderClassComponent call: the state the
instance holds when render runs, the resolved context assigned to the
instance, whether a will-mount method was invoked, and the rendering. -/
structure ClassRunLog where
  state : SMap
  context : JVal
  wmInvoked : Bool
  rendered : Rendered
deriving DecidableEq, Repr

/-- Effect of the modelled will-mount behaviour on the state, through the
updater shim semantics of enqueueSetState. -/
def applyWM : WMAct → SMap → SMap
  | .noop, st => st
  | .setSt upd, st => assignM (assignM [] st) upd

/-- renderClassComponent (src/index.js lines 195-223).  The instance is
constructed with the resolved props, its context is resolved from the
static context identity, and then exactly one of the following applies:
when the type declares a static derive-state-from-props function, the
derived result is merged over the initial state into a fresh object
(lines 200-206) and no will-mount method runs; otherwise the plain
will-mount method runs if present, else the legacy-prefixed one if
present, with the updater shim installed (lines 207-215).  Finally the
asynchronous render is invoked when the capability is exposed, the
ordinary render otherwise (lines 216-222). -/
def renderClassComponent (cls : ClassSpec) (props : SMap) (D : Nat → JVal)
    (contexts : List Binding) : ClassRunLog :=
  let context := getContext D contexts cls.contextType
  let finish := fun (st : SMap) (wm : Bool) =>
    { state := st, context := context, wmInvoked := wm
      rendered := if cls.asyncRender then Rendered.deferred (cls.render st)
                  else Rendered.val (cls.render st) : ClassRunLog }
  if cls.hasGdsfp then
    let originalState := cls.initState
    let derivedState := cls.gdsfp props originalState
    finish (assignM (assignM [] originalState) derivedState) false
  else
    match cls.cwm with
    | some w => finish (applyWM w cls.initState) true
    | none =>
      match cls.cwmUnsafe with
      | some w => finish (applyWM w cls.initState) true
      | none => finish cls.initState false

/-- Resolved props of a component node.  attrs holds the enumerable
attributes after the copy and the default fill-in; children is the nested
content installed as a read-only, non-enumerable property.  In the source
the children key of node.props is first copied by assign and then
redefined with the same value by defineProperty, so keeping it as a
separate field is observationally equivalent; a defaultProps entry named
children is outside the modelled scope (such a default would write to the
non-writable property), hence the corresponding hypothesis in the
theorem about this definition. -/
structure ResolvedProps where
  attrs : SMap
  children : Node
deriving DecidableEq, Repr

/-- getNodeProps (src/index.js lines 395-407): the node props are copied
into a fresh object, the nested content is installed as the read-only
children property, and every default entry whose key reads as undefined
on the copy — absent or explicitly undefined — is filled in with the
declared default. -/
def getNodeProps (np : SMap) (ch : Node) (defaultProps : SMap) : ResolvedProps :=
  let props := assignM [] np
  let props := defaultProps.foldl
    (fun m e => if jsGetM m e.1 = JVal.undef then setKeyM m e.1 e.2 else m) props
  { attrs := props, children := ch }

/-- Concrete element list for the positional-join claim: a deferred
element followed by an immediate one. -/
def c4list : List Node :=
  [Node.asyncComp 1 (Node.scalar (JVal.str "x")) (Node.scalar JVal.undef),
   Node.scalar (JVal.num 9)]

/-- Concrete component-free tree. -/
def c6tree : Node :=
  Node.tagElem "p" (Node.arrCons (Node.scalar (JVal.str "x")) Node.arrNil)

/-- Concrete class component declaring both a derive-state-from-props
function and a will-mount method. -/
def c7cls : ClassSpec where
  initState := [("cool", JVal.str "No"), ("keep", JVal.num 1)]
  hasGdsfp := true
  gdsfp := fun _ _ => [("cool", JVal.str "Yes")]
  cwm := some WMAct.noop
  cwmUnsafe := none
  contextType := none
  asyncRender := false
  render := fun _ => 0

/-- Concrete node props: a null attribute and an explicitly undefined
attribute. -/
def c10np : SMap := [("a", JVal.jnull), ("b", JVal.undef)]

/-- Concrete default props covering a present-undefined key and an absent
key. -/
def c10dp : SMap := [("b", JVal.str "B"), ("c", JVal.str "C")]

/-
Helper lemmas.  These are shared infrastructure for the claim theorems
below: association-list properties of the props/state model, list and
spine conversions, characterisations of the Promise.all join, ordering of
the seed event stream, and evaluation of component-free trees.
-/

theorem hasKeyM_iff_mem : ∀ (m : SMap) (k : String), hasKeyM m k = true ↔ k ∈ m.map Prod.fst := by
  intro m k
  induction m with
  | nil => simp [hasKeyM]
  | cons e rest ih =>
    by_cases h : e.1 = k
    · simp [hasKeyM, h]
    · simp [hasKeyM, h, ih, Ne.symm h]

theorem jsGetM_absent : ∀ (m : SMap) (k : String), hasKeyM m k = false → jsGetM m k = JVal.undef := by
  intro m k
  induction m with
  | nil => intro _; rfl
  | cons e rest ih =>
    intro h
    by_cases he : e.1 = k
    · simp [hasKeyM, he] at h
    · simp [hasKeyM, he] at h
      simp [jsGetM, he, ih h]

theorem jsGetM_map_set : ∀ (m : SMap) (k : String) (v : JVal), hasKeyM m k = true →
    jsGetM (m.map (fun e => if e.1 = k then (k, v) else e)) k = v := by
  intro m k v
  induction m with
  | nil => intro h; simp [hasKeyM] at h
  | cons e rest ih =>
    intro h
    by_cases he : e.1 = k
    · simp [jsGetM, he]
    · simp [hasKeyM, he] at h
      simp [jsGetM, he, ih h]

theorem jsGetM_append_set : ∀ (m : SMap) (k : String) (v : JVal), hasKeyM m k = false →
    jsGetM (m ++ [(k, v)]) k = v := by
  intro m k v
  induction m with
  | nil => intro _; simp [jsGetM]
  | cons e rest ih =>
    intro h
    by_cases he : e.1 = k
    · simp [hasKeyM, he] at h
    · simp [hasKeyM, he] at h
      simp [jsGetM, he, ih h]

theorem jsGetM_setKeyM_self : ∀ (m : SMap) (k : String) (v : JVal),
    jsGetM (setKeyM m k v) k = v := by
  intro m k v
  by_cases h : hasKeyM m k = true
  · simp [setKeyM, h, jsGetM_map_set m k v h]
  · simp at h
    simp [setKeyM, h, jsGetM_append_set m k v h]

theorem jsGetM_map_set_other : ∀ (m : SMap) (k k2 : String) (v : JVal), k2 ≠ k →
    jsGetM (m.map (fun e => if e.1 = k then (k, v) else e)) k2 = jsGetM m k2 := by
  intro m k k2 v hne
  induction m with
  | nil => rfl
  | cons e rest ih =>
    by_cases he : e.1 = k
    · simp only [List.map_cons, if_pos he]
      have h1 : ¬ (k = k2) := fun hh => hne hh.symm
      have h2 : ¬ (e.1 = k2) := fun hh => hne (hh ▸ he)
      simp [jsGetM, h1, h2, ih]
    · simp only [List.map_cons, if_neg he]
      by_cases he2 : e.1 = k2
      · simp [jsGetM, he2]
      · simp [jsGetM, he2, ih]

theorem jsGetM_append_other : ∀ (m : SMap) (k k2 : String) (v : JVal), k2 ≠ k →
    jsGetM (m ++ [(k, v)]) k2 = jsGetM m k2 := by
  intro m k k2 v hne
  induction m with
  | nil => simp [jsGetM, Ne.symm hne]
  | cons e rest ih =>
    by_cases he : e.1 = k2
    · simp [jsGetM, he]
    · simp [jsGetM, he, ih]

theorem jsGetM_setKeyM_other : ∀ (m : SMap) (k k2 : String) (v : JVal), k2 ≠ k →
    jsGetM (setKeyM m k v) k2 = jsGetM m k2 := by
  intro m k k2 v hne
  by_cases h : hasKeyM m k = true
  · simp [setKeyM, h, jsGetM_map_set_other m k k2 v hne]
  · simp at h
    simp [setKeyM, h, jsGetM_append_other m k k2 v hne]

theorem jsGetM_assignM_absent : ∀ (s d : SMap) (k : String), hasKeyM s k = false →
    jsGetM (assignM d s) k = jsGetM d k := by
  intro s
  induction s with
  | nil => intro d k _; rfl
  | cons e rest ih =>
    intro d k h
    by_cases he : e.1 = k
    · simp [hasKeyM, he] at h
    · simp [hasKeyM, he] at h
      show jsGetM (assignM (setKeyM d e.1 e.2) rest) k = _
      rw [ih (setKeyM d e.1 e.2) k h, jsGetM_setKeyM_other d e.1 k e.2 (fun hh => he hh.symm)]

theorem jsGetM_assignM_present : ∀ (s d : SMap) (k : String), (s.map Prod.fst).Nodup →
    hasKeyM s k = true → jsGetM (assignM d s) k = jsGetM s k := by
  intro s
  induction s with
  | nil => intro d k _ h; simp [hasKeyM] at h
  | cons e rest ih =>
    intro d k hnd h
    simp only [List.map_cons, List.nodup_cons] at hnd
    by_cases he : e.1 = k
    · have hrest : hasKeyM rest k = false := by
        by_contra hh
        simp at hh
        exact hnd.1 (he ▸ (hasKeyM_iff_mem rest k).1 hh)
      show jsGetM (assignM (setKeyM d e.1 e.2) rest) k = _
      rw [jsGetM_assignM_absent rest (setKeyM d e.1 e.2) k hrest, he,
        jsGetM_setKeyM_self d k e.2]
      simp [jsGetM, he]
    · simp [hasKeyM, he] at h
      show jsGetM (assignM (setKeyM d e.1 e.2) rest) k = _
      rw [ih (setKeyM d e.1 e.2) k hnd.2 h]
      simp [jsGetM, he]

theorem jsGetM_assignM_nil : ∀ (s : SMap) (k : String), (s.map Prod.fst).Nodup →
    jsGetM (assignM [] s) k = jsGetM s k := by
  intro s k hnd
  by_cases h : hasKeyM s k = true
  · exact jsGetM_assignM_present s [] k hnd h
  · simp at h
    rw [jsGetM_assignM_absent s [] k h, jsGetM_absent s k h]
    rfl

theorem defaults_fold_get : ∀ (dp m : SMap) (k : String), (dp.map Prod.fst).Nodup →
    jsGetM (dp.foldl (fun m e => if jsGetM m e.1 = JVal.undef then setKeyM m e.1 e.2 else m) m) k
      = if jsGetM m k = JVal.undef then jsGetM dp k else jsGetM m k := by
  intro dp
  induction dp with
  | nil =>
    intro m k _
    by_cases h : jsGetM m k = JVal.undef <;> simp [jsGetM, h]
  | cons e rest ih =>
    intro m k hnd
    simp only [List.map_cons, List.nodup_cons] at hnd
    simp only [List.foldl_cons]
    rw [ih _ k hnd.2]
    by_cases he : e.1 = k
    · subst he
      by_cases hu : jsGetM m e.1 = JVal.undef
      · simp only [if_pos hu]
        have hrest : hasKeyM rest e.1 = false := by
          by_contra hh
          simp at hh
          exact hnd.1 ((hasKeyM_iff_mem rest e.1).1 hh)
        rw [jsGetM_setKeyM_self m e.1 e.2]
        by_cases hv : e.2 = JVal.undef
        · simp [hv, jsGetM_absent rest e.1 hrest, jsGetM, hu]
        · simp [hv, jsGetM, hu]
      · simp [hu, jsGetM, hu]
    · by_cases hu : jsGetM m e.1 = JVal.undef
      · simp only [if_pos hu]
        rw [jsGetM_setKeyM_other m e.1 k e.2 (fun hh => he hh.symm)]
        simp [jsGetM, he]
      · simp [hu, jsGetM, he]

theorem toListN_ofListN : ∀ ls : List Node, toListN (ofListN ls) = ls := by
  intro ls
  induction ls with
  | nil => rfl
  | cons l ls ih => simp [ofListN, toListN, ih]

theorem go_char (D : Nat → JVal) (ctx : List Binding) (b : Bool) : ∀ ls : List Node,
    (∀ vs, harvestGo D (ofListN ls) ctx b = .vals vs →
      vs = ofListN (ls.map (fun l => resVal (harvestNodes D l ctx b)))) ∧
    (∀ t vs evs, harvestGo D (ofListN ls) ctx b = .prom t (.ok vs) evs →
      vs = ofListN (ls.map (fun l => resVal (harvestNodes D l ctx b)))) := by
  intro ls
  induction ls with
  | nil =>
    constructor
    · intro vs h
      simp [ofListN, harvestGo] at h
      simp [← h, ofListN]
    · intro t vs evs h
      simp [ofListN, harvestGo] at h
  | cons l ls ih =>
    constructor
    · intro vs h
      simp only [ofListN] at h
      cases hr : harvestNodes D l ctx b with
      | thrown e => simp [harvestGo, hr] at h
      | now v =>
        cases hg : harvestGo D (ofListN ls) ctx b with
        | thrownG e => simp [harvestGo, hr, hg] at h
        | vals vs0 =>
          simp [harvestGo, hr, hg] at h
          simp [← h, List.map_cons, ofListN, resVal, hr, ih.1 vs0 hg]
        | prom t2 o2 e2 => simp [harvestGo, hr, hg] at h
      | promise t1 o1 e1 =>
        cases hg : harvestGo D (ofListN ls) ctx b with
        | thrownG e => simp [harvestGo, hr, hg] at h
        | vals vs0 => simp [harvestGo, hr, hg] at h
        | prom t2 o2 e2 => simp [harvestGo, hr, hg] at h
    · intro t vs evs h
      simp only [ofListN] at h
      cases hr : harvestNodes D l ctx b with
      | thrown e => simp [harvestGo, hr] at h
      | now v =>
        cases hg : harvestGo D (ofListN ls) ctx b with
        | thrownG e => simp [harvestGo, hr, hg] at h
        | vals vs0 => simp [harvestGo, hr, hg] at h
        | prom t2 o2 e2 =>
          simp [harvestGo, hr, hg] at h
          cases o2 with
          | error e => simp [Except.map] at h
          | ok vs0 =>
            simp [Except.map] at h
            simp [← h.2.1, List.map_cons, ofListN, resVal, hr, ih.2 t2 vs0 e2 (by rw [hg])]
      | promise t1 o1 e1 =>
        cases hg : harvestGo D (ofListN ls) ctx b with
        | thrownG e => simp [harvestGo, hr, hg] at h
        | vals vs0 =>
          simp [harvestGo, hr, hg] at h
          cases o1 with
          | error e => simp [Except.map] at h
          | ok v =>
            simp [Except.map] at h
            simp [← h.2.1, List.map_cons, ofListN, resVal, hr, ih.1 vs0 (by rw [hg])]
        | prom t2 o2 e2 =>
          simp [harvestGo, hr, hg] at h
          cases o1 with
          | error e1v =>
            cases o2 with
            | error e2v =>
              simp [allPair] at h
              by_cases hle : t1 ≤ t2 <;> simp [hle] at h
            | ok vs0 => simp [allPair] at h
          | ok v =>
            cases o2 with
            | error e2v => simp [allPair] at h
            | ok vs0 =>
              simp [allPair] at h
              simp [← h.2.1, List.map_cons, ofListN, resVal, hr, ih.2 t2 vs0 e2 (by rw [hg])]

theorem go_no_throw (D : Nat → JVal) (ctx : List Binding) (b : Bool) : ∀ ls : List Node,
    (∀ l ∈ ls, isThrownR (harvestNodes D l ctx b) = false) →
    ∀ e, harvestGo D (ofListN ls) ctx b ≠ .thrownG e := by
  intro ls
  induction ls with
  | nil => intro _ e h; simp [ofListN, harvestGo] at h
  | cons l ls ih =>
    intro hnt e h
    have hl : isThrownR (harvestNodes D l ctx b) = false := hnt l (by simp)
    have hls : ∀ x ∈ ls, isThrownR (harvestNodes D x ctx b) = false :=
      fun x hx => hnt x (by simp [hx])
    simp only [ofListN] at h
    cases hr : harvestNodes D l ctx b with
    | thrown e2 => simp [isThrownR, hr] at hl
    | now v =>
      cases hg : harvestGo D (ofListN ls) ctx b with
      | thrownG e2 => exact ih hls e2 hg
      | vals vs0 => simp [harvestGo, hr, hg] at h
      | prom t2 o2 e2 => simp [harvestGo, hr, hg] at h
    | promise t1 o1 e1 =>
      cases hg : harvestGo D (ofListN ls) ctx b with
      | thrownG e2 => exact ih hls e2 hg
      | vals vs0 => simp [harvestGo, hr, hg] at h
      | prom t2 o2 e2 => simp [harvestGo, hr, hg] at h

theorem go_defers (D : Nat → JVal) (ctx : List Binding) (b : Bool) : ∀ ls : List Node,
    (∀ l ∈ ls, isThrownR (harvestNodes D l ctx b) = false) →
    (∃ l ∈ ls, isProm (harvestNodes D l ctx b) = true) →
    ∃ t out evs, harvestGo D (ofListN ls) ctx b = .prom t out evs := by
  intro ls
  induction ls with
  | nil => intro _ h; simp at h
  | cons l ls ih =>
    intro hnt hex
    have hl : isThrownR (harvestNodes D l ctx b) = false := hnt l (by simp)
    have hls : ∀ x ∈ ls, isThrownR (harvestNodes D x ctx b) = false :=
      fun x hx => hnt x (by simp [hx])
    simp only [ofListN]
    cases hr : harvestNodes D l ctx b with
    | thrown e2 => simp [isThrownR, hr] at hl
    | now v =>
      have hex2 : ∃ x ∈ ls, isProm (harvestNodes D x ctx b) = true := by
        obtain ⟨x, hx, hp⟩ := hex
        rcases List.mem_cons.1 hx with rfl | hx2
        · simp [isProm, hr] at hp
        · exact ⟨x, hx2, hp⟩
      obtain ⟨t2, o2, e2, hg⟩ := ih hls hex2
      exact ⟨t2, o2.map (fun vs => .arrCons v vs), e2, by simp [harvestGo, hr, hg]⟩
    | promise t1 o1 e1 =>
      cases hg : harvestGo D (ofListN ls) ctx b with
      | thrownG e2 => exact absurd hg (go_no_throw D ctx b ls hls e2)
      | vals vs0 =>
        exact ⟨t1, o1.map (fun v => .arrCons v vs0), e1, by simp [harvestGo, hr, hg]⟩
      | prom t2 o2 e2 =>
        exact ⟨(allPair t1 o1 t2 o2).1, (allPair t1 o1 t2 o2).2, mergeEvs e1 e2,
          by simp [harvestGo, hr, hg]⟩

theorem sortedEvs_cons_cons : ∀ (x y : Nat × Seed) (l : List (Nat × Seed)),
    sortedEvs (x :: y :: l) = true ↔ x.1 ≤ y.1 ∧ sortedEvs (y :: l) = true := by
  intro x y l
  by_cases h : x.1 ≤ y.1 <;> simp [sortedEvs, h]

theorem sortedEvs_tail : ∀ (x : Nat × Seed) (l : List (Nat × Seed)),
    sortedEvs (x :: l) = true → sortedEvs l = true := by
  intro x l h
  cases l with
  | nil => rfl
  | cons y l2 => exact ((sortedEvs_cons_cons x y l2).1 h).2

theorem sorted_le_of_mem : ∀ (l : List (Nat × Seed)) (x : Nat × Seed),
    sortedEvs (x :: l) = true → ∀ p ∈ l, x.1 ≤ p.1 := by
  intro l
  induction l with
  | nil => intro x _ p hp; simp at hp
  | cons y l2 ih =>
    intro x h p hp
    have h1 := (sortedEvs_cons_cons x y l2).1 h
    rcases List.mem_cons.1 hp with rfl | hp2
    · exact h1.1
    · exact le_trans h1.1 (ih y h1.2 p hp2)

theorem sortedEvs_cons_of : ∀ (x : Nat × Seed) (l : List (Nat × Seed)),
    sortedEvs l = true → (∀ p ∈ l, x.1 ≤ p.1) → sortedEvs (x :: l) = true := by
  intro x l hs hb
  cases l with
  | nil => rfl
  | cons y l2 => exact (sortedEvs_cons_cons x y l2).2 ⟨hb y (by simp), hs⟩

theorem mem_mergeEvs : ∀ (xs ys : List (Nat × Seed)) (p : Nat × Seed),
    p ∈ mergeEvs xs ys ↔ p ∈ xs ∨ p ∈ ys := by
  intro xs ys
  induction xs, ys using mergeEvs.induct with
  | case1 ys => simp [mergeEvs]
  | case2 xs h => cases xs <;> simp [mergeEvs]
  | case3 x xs y ys hle ih =>
    intro p
    rw [mergeEvs]
    simp only [if_pos hle, List.mem_cons, ih p]
    tauto
  | case4 x xs y ys hle ih =>
    intro p
    rw [mergeEvs]
    simp only [if_neg hle, List.mem_cons, ih p]
    tauto

theorem merge_sorted : ∀ (xs ys : List (Nat × Seed)),
    sortedEvs xs = true → sortedEvs ys = true → sortedEvs (mergeEvs xs ys) = true := by
  intro xs ys
  induction xs, ys using mergeEvs.induct with
  | case1 ys => intro _ h; simpa [mergeEvs] using h
  | case2 xs h => intro h _; cases xs <;> simpa [mergeEvs] using h
  | case3 x xs y ys hle ih =>
    intro hx hy
    rw [mergeEvs, if_pos hle]
    refine sortedEvs_cons_of x _ (ih (sortedEvs_tail x xs hx) hy) ?_
    intro p hp
    rcases (mem_mergeEvs xs (y :: ys) p).1 hp with h1 | h1
    · exact sorted_le_of_mem xs x hx p h1
    · rcases List.mem_cons.1 h1 with rfl | h2
      · exact hle
      · exact le_trans hle (sorted_le_of_mem ys y hy p h2)
  | case4 x xs y ys hle ih =>
    intro hx hy
    rw [mergeEvs, if_neg hle]
    have hyx : y.1 ≤ x.1 := le_of_not_le hle
    refine sortedEvs_cons_of y _ (ih hx (sortedEvs_tail y ys hy)) ?_
    intro p hp
    rcases (mem_mergeEvs (x :: xs) ys p).1 hp with h1 | h1
    · rcases List.mem_cons.1 h1 with rfl | h2
      · exact hyx
      · exact le_trans hyx (sorted_le_of_mem xs x hx p h2)
    · exact sorted_le_of_mem ys y hy p h1

theorem shiftEvs_sorted : ∀ (d : Nat) (l : List (Nat × Seed)),
    sortedEvs l = true → sortedEvs (shiftEvs d l) = true := by
  intro d l
  induction l with
  | nil => intro _; rfl
  | cons x l2 ih =>
    intro h
    cases l2 with
    | nil => rfl
    | cons y l3 =>
      have h1 := (sortedEvs_cons_cons x y l3).1 h
      simp only [shiftEvs, List.map_cons]
      refine (sortedEvs_cons_cons _ _ _).2 ⟨by simpa using h1.1, ?_⟩
      simpa [shiftEvs] using ih h1.2

theorem mem_shiftEvs_le : ∀ (d : Nat) (l : List (Nat × Seed)) (p : Nat × Seed),
    p ∈ shiftEvs d l → d ≤ p.1 := by
  intro d l p hp
  simp only [shiftEvs, List.mem_map] at hp
  obtain ⟨q, _, rfl⟩ := hp
  simp

theorem sorted_all (D : Nat → JVal) : ∀ n : Node, ∀ (ctx : List Binding) (b : Bool),
    (∀ t o evs, harvestNode D n ctx b = .promise t o evs → sortedEvs evs = true) ∧
    (∀ t o evs, harvestNodes D n ctx b = .promise t o evs → sortedEvs evs = true) ∧
    (∀ t o evs, harvestGo D n ctx b = .prom t o evs → sortedEvs evs = true) := by
  intro n
  induction n with
  | scalar v =>
    intro ctx b
    exact ⟨fun t o evs h => by simp [harvestNode] at h,
      fun t o evs h => by simp [harvestNodes, harvestNode] at h,
      fun t o evs h => by simp [harvestGo] at h⟩
  | arrNil =>
    intro ctx b
    exact ⟨fun t o evs h => by simp [harvestNode] at h,
      fun t o evs h => by simp [harvestNodes, harvestGo, arrFinish] at h,
      fun t o evs h => by simp [harvestGo] at h⟩
  | arrCons hd tl ihh iht =>
    intro ctx b
    have hgo : ∀ t o evs, harvestGo D (.arrCons hd tl) ctx b = .prom t o evs →
        sortedEvs evs = true := by
      intro t o evs h
      cases hr : harvestNodes D hd ctx b with
      | thrown e => simp [harvestGo, hr] at h
      | now v =>
        cases hg : harvestGo D tl ctx b with
        | thrownG e => simp [harvestGo, hr, hg] at h
        | vals vs0 => simp [harvestGo, hr, hg] at h
        | prom t2 o2 e2 =>
          simp [harvestGo, hr, hg] at h
          exact h.2.2 ▸ (iht ctx b).2.2 t2 o2 e2 hg
      | promise t1 o1 e1 =>
        cases hg : harvestGo D tl ctx b with
        | thrownG e => simp [harvestGo, hr, hg] at h
        | vals vs0 =>
          simp [harvestGo, hr, hg] at h
          exact h.2.2 ▸ (ihh ctx b).2.1 t1 o1 e1 hr
        | prom t2 o2 e2 =>
          simp [harvestGo, hr, hg] at h
          exact h.2.2 ▸ merge_sorted e1 e2 ((ihh ctx b).2.1 t1 o1 e1 hr)
            ((iht ctx b).2.2 t2 o2 e2 hg)
    refine ⟨fun t o evs h => by simp [harvestNode] at h, ?_, hgo⟩
    intro t o evs h
    cases hg : harvestGo D (.arrCons hd tl) ctx b with
    | thrownG e => simp [harvestNodes, hg, arrFinish] at h
    | vals vs0 =>
      simp [harvestNodes, hg, arrFinish] at h
      by_cases hc : vs0 = Node.arrCons hd tl <;> simp [hc] at h
    | prom t2 o2 e2 =>
      simp [harvestNodes, hg, arrFinish] at h
      exact h.2.2 ▸ hgo t2 o2 e2 hg
  | tagElem s ch ih =>
    intro ctx b
    have hnode : ∀ t o evs, harvestNode D (.tagElem s ch) ctx b = .promise t o evs →
        sortedEvs evs = true := by
      intro t o evs h
      by_cases hs : s = ""
      · simp [harvestNode, hs] at h
      · simp only [harvestNode, if_neg hs] at h
        cases hch : harvestNodes D ch ctx b with
        | thrown e => simp [hch, elemFinish] at h
        | now v =>
          simp [hch, elemFinish] at h
          by_cases hc : v = ch <;> simp [hc] at h
        | promise t0 o0 evs0 =>
          simp [hch, elemFinish] at h
          exact h.2.2 ▸ (ih ctx b).2.1 t0 o0 evs0 hch
    exact ⟨hnode, fun t o evs h => hnode t o evs (by simpa [harvestNodes] using h),
      fun t o evs h => by simp [harvestGo] at h⟩
  | badTruthy ch ih =>
    intro ctx b
    have hnode : ∀ t o evs, harvestNode D (.badTruthy ch) ctx b = .promise t o evs →
        sortedEvs evs = true := by
      intro t o evs h
      simp only [harvestNode] at h
      cases hch : harvestNodes D ch ctx b with
      | thrown e => simp [hch, elemFinish] at h
      | now v =>
        simp [hch, elemFinish] at h
        by_cases hc : v = ch <;> simp [hc] at h
      | promise t0 o0 evs0 =>
        simp [hch, elemFinish] at h
        exact h.2.2 ▸ (ih ctx b).2.1 t0 o0 evs0 hch
    exact ⟨hnode, fun t o evs h => hnode t o evs (by simpa [harvestNodes] using h),
      fun t o evs h => by simp [harvestGo] at h⟩
  | syncComp out ch iho ihch =>
    intro ctx b
    have hnode : ∀ t o evs, harvestNode D (.syncComp out ch) ctx b = .promise t o evs →
        sortedEvs evs = true := by
      intro t o evs h
      simp only [harvestNode] at h
      exact (iho ctx b).2.1 t o evs h
    exact ⟨hnode, fun t o evs h => hnode t o evs (by simpa [harvestNodes] using h),
      fun t o evs h => by simp [harvestGo] at h⟩
  | memoComp out ch iho ihch =>
    intro ctx b
    have hnode : ∀ t o evs, harvestNode D (.memoComp out ch) ctx b = .promise t o evs →
        sortedEvs evs = true := by
      intro t o evs h
      simp only [harvestNode] at h
      exact (iho ctx b).2.1 t o evs h
    exact ⟨hnode, fun t o evs h => hnode t o evs (by simpa [harvestNodes] using h),
      fun t o evs h => by simp [harvestGo] at h⟩
  | asyncComp d out ch iho ihch =>
    intro ctx b
    have hnode : ∀ t o evs, harvestNode D (.asyncComp d out ch) ctx b = .promise t o evs →
        sortedEvs evs = true := by
      intro t o evs h
      cases hr : harvestNode D out [] b with
      | now v =>
        cases b <;>
          · simp [harvestNode, hr] at h
            rcases h with ⟨-, -, h3⟩
            exact h3 ▸ rfl
      | thrown e =>
        cases b <;>
          · simp [harvestNode, hr] at h
            rcases h with ⟨-, -, h3⟩
            exact h3 ▸ rfl
      | promise t0 o0 evs0 =>
        have hs0 : sortedEvs evs0 = true := (iho [] b).1 t0 o0 evs0 hr
        simp [harvestNode, hr] at h
        rcases h with ⟨h1, h2, h3⟩
        cases b with
        | false =>
          simp at h3
          exact h3 ▸ shiftEvs_sorted d evs0 hs0
        | true =>
          simp at h3
          subst h3
          refine sortedEvs_cons_of _ _ (shiftEvs_sorted d evs0 hs0) ?_
          intro p hp
          exact mem_shiftEvs_le d evs0 p hp
    exact ⟨hnode, fun t o evs h => hnode t o evs (by simpa [harvestNodes] using h),
      fun t o evs h => by simp [harvestGo] at h⟩
  | throwComp e ch ih =>
    intro ctx b
    exact ⟨fun t o evs h => by simp [harvestNode] at h,
      fun t o evs h => by simp [harvestNodes, harvestNode] at h,
      fun t o evs h => by simp [harvestGo] at h⟩
  | rejectComp d e ch ih =>
    intro ctx b
    refine ⟨?_, ?_, fun t o evs h => by simp [harvestGo] at h⟩
    · intro t o evs h
      simp [harvestNode] at h
      rcases h with ⟨-, -, h3⟩
      exact h3 ▸ rfl
    · intro t o evs h
      simp [harvestNodes, harvestNode] at h
      rcases h with ⟨-, -, h3⟩
      exact h3 ▸ rfl
  | provider i v ch ih =>
    intro ctx b
    have hnode : ∀ t o evs, harvestNode D (.provider i v ch) ctx b = .promise t o evs →
        sortedEvs evs = true := by
      intro t o evs h
      simp only [harvestNode] at h
      exact (ih (ctx ++ [⟨i, v⟩]) b).2.1 t o evs h
    exact ⟨hnode, fun t o evs h => hnode t o evs (by simpa [harvestNodes] using h),
      fun t o evs h => by simp [harvestGo] at h⟩
  | consumer i =>
    intro ctx b
    exact ⟨fun t o evs h => by simp [harvestNode] at h,
      fun t o evs h => by simp [harvestNodes, harvestNode] at h,
      fun t o evs h => by simp [harvestGo] at h⟩
  | badFalsy ch ih =>
    intro ctx b
    exact ⟨fun t o evs h => by simp [harvestNode] at h,
      fun t o evs h => by simp [harvestNodes, harvestNode] at h,
      fun t o evs h => by simp [harvestGo] at h⟩

theorem asyncFree_noProm (D : Nat → JVal) : ∀ n : Node, ∀ (ctx : List Binding) (b : Bool),
    asyncFree n = true →
    ((∀ t o evs, harvestNode D n ctx b ≠ .promise t o evs) ∧
     (∀ t o evs, harvestNodes D n ctx b ≠ .promise t o evs) ∧
     (∀ t o evs, harvestGo D n ctx b ≠ .prom t o evs)) := by
  intro n
  induction n with
  | scalar v =>
    intro ctx b _
    exact ⟨fun t o evs h => by simp [harvestNode] at h,
      fun t o evs h => by simp [harvestNodes, harvestNode] at h,
      fun t o evs h => by simp [harvestGo] at h⟩
  | arrNil =>
    intro ctx b _
    exact ⟨fun t o evs h => by simp [harvestNode] at h,
      fun t o evs h => by simp [harvestNodes, harvestGo, arrFinish] at h,
      fun t o evs h => by simp [harvestGo] at h⟩
  | arrCons hd tl ihh iht =>
    intro ctx b ha
    simp only [asyncFree, Bool.and_eq_true] at ha
    have hgo : ∀ t o evs, harvestGo D (.arrCons hd tl) ctx b ≠ .prom t o evs := by
      intro t o evs h
      cases hr : harvestNodes D hd ctx b with
      | thrown e => simp [harvestGo, hr] at h
      | now v =>
        cases hg : harvestGo D tl ctx b with
        | thrownG e => simp [harvestGo, hr, hg] at h
        | vals vs0 => simp [harvestGo, hr, hg] at h
        | prom t2 o2 e2 => exact (iht ctx b ha.2).2.2 t2 o2 e2 hg
      | promise t1 o1 e1 => exact (ihh ctx b ha.1).2.1 t1 o1 e1 hr
    refine ⟨fun t o evs h => by simp [harvestNode] at h, ?_, hgo⟩
    intro t o evs h
    cases hg : harvestGo D (.arrCons hd tl) ctx b with
    | thrownG e => simp [harvestNodes, hg, arrFinish] at h
    | vals vs0 =>
      simp [harvestNodes, hg, arrFinish] at h
      by_cases hc : vs0 = Node.arrCons hd tl <;> simp [hc] at h
    | prom t2 o2 e2 => exact hgo t2 o2 e2 hg
  | tagElem s ch ih =>
    intro ctx b ha
    simp only [asyncFree] at ha
    have hnode : ∀ t o evs, harvestNode D (.tagElem s ch) ctx b ≠ .promise t o evs := by
      intro t o evs h
      by_cases hs : s = ""
      · simp [harvestNode, hs] at h
      · simp only [harvestNode, if_neg hs] at h
        cases hch : harvestNodes D ch ctx b with
        | thrown e => simp [hch, elemFinish] at h
        | now v =>
          simp [hch, elemFinish] at h
          by_cases hc : v = ch <;> simp [hc] at h
        | promise t0 o0 evs0 => exact (ih ctx b ha).2.1 t0 o0 evs0 hch
    exact ⟨hnode, fun t o evs h => hnode t o evs (by simpa [harvestNodes] using h),
      fun t o evs h => by simp [harvestGo] at h⟩
  | badTruthy ch ih =>
    intro ctx b ha
    simp only [asyncFree] at ha
    have hnode : ∀ t o evs, harvestNode D (.badTruthy ch) ctx b ≠ .promise t o evs := by
      intro t o evs h
      simp only [harvestNode] at h
      cases hch : harvestNodes D ch ctx b with
      | thrown e => simp [hch, elemFinish] at h
      | now v =>
        simp [hch, elemFinish] at h
        by_cases hc : v = ch <;> simp [hc] at h
      | promise t0 o0 evs0 => exact (ih ctx b ha).2.1 t0 o0 evs0 hch
    exact ⟨hnode, fun t o evs h => hnode t o evs (by simpa [harvestNodes] using h),
      fun t o evs h => by simp [harvestGo] at h⟩
  | syncComp out ch iho ihch =>
    intro ctx b ha
    simp only [asyncFree] at ha
    have hnode : ∀ t o evs, harvestNode D (.syncComp out ch) ctx b ≠ .promise t o evs := by
      intro t o evs h
      simp only [harvestNode] at h
      exact (iho ctx b ha).2.1 t o evs h
    exact ⟨hnode, fun t o evs h => hnode t o evs (by simpa [harvestNodes] using h),
      fun t o evs h => by simp [harvestGo] at h⟩
  | memoComp out ch iho ihch =>
    intro ctx b ha
    simp only [asyncFree] at ha
    have hnode : ∀ t o evs, harvestNode D (.memoComp out ch) ctx b ≠ .promise t o evs := by
      intro t o evs h
      simp only [harvestNode] at h
      exact (iho ctx b ha).2.1 t o evs h
    exact ⟨hnode, fun t o evs h => hnode t o evs (by simpa [harvestNodes] using h),
      fun t o evs h => by simp [harvestGo] at h⟩
  | asyncComp d out ch iho ihch =>
    intro ctx b ha
    simp [asyncFree] at ha
  | throwComp e ch ih =>
    intro ctx b _
    exact ⟨fun t o evs h => by simp [harvestNode] at h,
      fun t o evs h => by simp [harvestNodes, harvestNode] at h,
      fun t o evs h => by simp [harvestGo] at h⟩
  | rejectComp d e ch ih =>
    intro ctx b ha
    simp [asyncFree] at ha
  | provider i v ch ih =>
    intro ctx b ha
    simp only [asyncFree] at ha
    have hnode : ∀ t o evs, harvestNode D (.provider i v ch) ctx b ≠ .promise t o evs := by
      intro t o evs h
      simp only [harvestNode] at h
      exact (ih (ctx ++ [⟨i, v⟩]) b ha).2.1 t o evs h
    exact ⟨hnode, fun t o evs h => hnode t o evs (by simpa [harvestNodes] using h),
      fun t o evs h => by simp [harvestGo] at h⟩
  | consumer i =>
    intro ctx b _
    exact ⟨fun t o evs h => by simp [harvestNode] at h,
      fun t o evs h => by simp [harvestNodes, harvestNode] at h,
      fun t o evs h => by simp [harvestGo] at h⟩
  | badFalsy ch ih =>
    intro ctx b _
    exact ⟨fun t o evs h => by simp [harvestNode] at h,
      fun t o evs h => by simp [harvestNodes, harvestNode] at h,
      fun t o evs h => by simp [harvestGo] at h⟩

theorem cfree_eval (D : Nat → JVal) : ∀ n : Node, cfree n = true → ∀ ctx,
    (isArrN n = false → harvestNode D n ctx false = .now n) ∧
    harvestNodes D n ctx false = .now n ∧
    (isArrN n = true → harvestGo D n ctx false = .vals n) := by
  intro n
  induction n with
  | scalar v =>
    intro _ ctx
    exact ⟨fun _ => by simp [harvestNode], by simp [harvestNodes, harvestNode],
      by simp [isArrN]⟩
  | arrNil =>
    intro _ ctx
    refine ⟨by simp [isArrN], ?_, fun _ => by simp [harvestGo]⟩
    simp [harvestNodes, harvestGo, arrFinish]
  | arrCons h t ihh iht =>
    intro hc ctx
    simp only [cfree, Bool.and_eq_true] at hc
    obtain ⟨⟨hch, hct⟩, hsp⟩ := hc
    have Hh := ihh hch ctx
    have Ht := iht hct ctx
    have hgo : harvestGo D (Node.arrCons h t) ctx false = .vals (Node.arrCons h t) := by
      simp [harvestGo, Hh.2.1, Ht.2.2 hsp]
    refine ⟨by simp [isArrN], ?_, fun _ => hgo⟩
    simp [harvestNodes, hgo, arrFinish]
  | tagElem s ch ih =>
    intro hc ctx
    simp only [cfree] at hc
    by_cases hs : s = ""
    · simp [hs] at hc
    · simp only [if_neg hs] at hc
      have H := ih hc ctx
      refine ⟨fun _ => ?_, ?_, by simp [isArrN]⟩
      · simp [harvestNode, if_neg hs, H.2.1, elemFinish]
      · have : harvestNode D (Node.tagElem s ch) ctx false = .now (Node.tagElem s ch) := by
          simp [harvestNode, if_neg hs, H.2.1, elemFinish]
        simp [harvestNodes, this]
  | syncComp o ch iho ihch => intro hc ctx; simp [cfree] at hc
  | memoComp o ch iho ihch => intro hc ctx; simp [cfree] at hc
  | asyncComp d o ch iho ihch => intro hc ctx; simp [cfree] at hc
  | throwComp e ch ih => intro hc ctx; simp [cfree] at hc
  | rejectComp d e ch ih => intro hc ctx; simp [cfree] at hc
  | provider i v ch ih => intro hc ctx; simp [cfree] at hc
  | consumer i => intro hc ctx; simp [cfree] at hc
  | badFalsy ch ih => intro hc ctx; simp [cfree] at hc
  | badTruthy ch ih => intro hc ctx; simp [cfree] at hc

/-
Claim theorems.
-/

/-- C1.  The claim states that a binding pushed by a context provider is
visible to every lookup performed while resolving the provider subtree,
including lookups made in continuations after an asynchronous render
inside that subtree resolves.  The code violates this: the provider pops
the shared mutable stack synchronously, before the promise continuation
that harvests the settled rendering runs, so a consumer inside the output
of an asynchronous component observes the registered default instead of
the provided value.  This theorem evaluates the model at the failing
input: a provider binding identity 0 to dark, wrapping an asynchronous
component whose settled rendering is a consumer of identity 0, under a
default environment mapping identity 0 to light — the harvested tree
shows light, not dark. -/
theorem c1_provider_binding_invisible_after_async :
    (harvest D0 c1node false).outcome = .ok (.tree (Node.scalar (JVal.str "light"))) ∧
    (harvest D0 c1node false).outcome ≠ .ok (.tree (Node.scalar (JVal.str "dark"))) := by
  constructor
  · simp [harvest, harvestNode, harvestNodes, harvestGo, c1node, D0, getContext, lookupLast]
  · simp [harvest, harvestNode, harvestNodes, harvestGo, c1node, D0, getContext, lookupLast]

/-- C2.  When the host dispatcher slot exists, renderHookComponent saves
the previous dispatcher, installs the shim for exactly the one
synchronous invocation of the component function (the function observes
the shim), and the slot holds the prior value again at the moment the
call returns or throws — in particular before any deferred rendering it
returned can be awaited, so the shim never spans an asynchronous
boundary. -/
theorem c2_dispatcher_shim_scoped : ∀ (f : Slot → FuncOut) (s0 : Slot),
    (renderHookComponent true f s0).finalSlot = s0 ∧
    (renderHookComponent true f s0).result = runFunc f Slot.shim ∧
    (∀ e, f Slot.shim = .raises e → (renderHookComponent true f s0).result = .error e) ∧
    (∀ p, (renderHookComponent true f s0).result = .ok (.deferred p) →
        (renderHookComponent true f s0).finalSlot = s0) ∧
    (s0 ≠ Slot.shim → (renderHookComponent true f s0).finalSlot ≠ Slot.shim) := by
  intro f s0
  refine ⟨rfl, rfl, ?_, ?_, ?_⟩
  · intro e h; simp [renderHookComponent, runFunc, h]
  · intro p _; rfl
  · intro h; simpa [renderHookComponent] using h

/-- Witness for C2 at concrete inputs: a throwing component has its error
surfaced and the slot restored, and a deferred-returning component leaves
the slot restored when the deferred value exists. -/
theorem c2_dispatcher_shim_scoped_witness :
    (renderHookComponent true (fun _ => FuncOut.raises 3) (Slot.host 0)).result = .error 3 ∧
    (renderHookComponent true (fun _ => FuncOut.raises 3) (Slot.host 0)).finalSlot = Slot.host 0 ∧
    (renderHookComponent true (fun _ => FuncOut.retDeferred 5) (Slot.host 1)).finalSlot
      = Slot.host 1 :=
  ⟨(c2_dispatcher_shim_scoped (fun _ => FuncOut.raises 3) (Slot.host 0)).2.2.1 3 rfl,
   (c2_dispatcher_shim_scoped (fun _ => FuncOut.raises 3) (Slot.host 0)).1,
   (c2_dispatcher_shim_scoped (fun _ => FuncOut.retDeferred 5) (Slot.host 1)).2.2.2.1 5 rfl⟩

/-- C3.  harvest never propagates an exception synchronously: when the
synchronous phase of the resolution throws, the returned future rejects
with that same error, and when the resolution defers and the deferred
outcome is a rejection, the top-level call rejects with the original
reason; in both cases no tree accompanies the error. -/
theorem c3_harvest_rejects_with_original_error : ∀ (D : Nat → JVal) (n : Node) (s : Bool),
    (∀ e, harvestNode D n [] s = .thrown e → (harvest D n s).outcome = .error e) ∧
    (∀ t e evs, harvestNode D n [] s = .promise t (.error e) evs →
      (harvest D n s).outcome = .error e) := by
  intro D n s
  constructor
  · intro e h; simp [harvest, h]
  · intro t e evs h; simp [harvest, h]

/-- Witness for C3: a component whose render throws error 7 makes harvest
reject with 7, and a component whose deferred render rejects with 5 makes
harvest reject with 5. -/
theorem c3_harvest_rejects_witness :
    (harvest D0 (Node.throwComp 7 (Node.scalar JVal.undef)) false).outcome = .error 7 ∧
    (harvest D0 (Node.rejectComp 2 5 (Node.scalar JVal.undef)) false).outcome = .error 5 :=
  ⟨(c3_harvest_rejects_with_original_error D0 (Node.throwComp 7 (Node.scalar JVal.undef))
      false).1 7 (by simp [harvestNode]),
   (c3_harvest_rejects_with_original_error D0 (Node.rejectComp 2 5 (Node.scalar JVal.undef))
      false).2 2 5 [] (by simp [harvestNode])⟩

/-- C4.  When the array branch of harvestNodes produces a fulfilled
deferred join, the resolved array has one value per input element and the
value at every position is the resolved value of the element originally
at that position — positions never depend on settlement times; and
whenever no element throws synchronously and at least one element
defers, the whole array resolution is a deferred join. -/
theorem c4_join_preserves_positions : ∀ (D : Nat → JVal) (ls : List Node)
    (ctx : List Binding) (b : Bool),
    (∀ t vs evs, harvestNodes D (ofListN ls) ctx b = .promise t (.ok vs) evs →
      (toListN vs).length = ls.length ∧
      ∀ i (h1 : i < ls.length) (h2 : i < (toListN vs).length),
        (toListN vs).get ⟨i, h2⟩ = resVal (harvestNodes D (ls.get ⟨i, h1⟩) ctx b)) ∧
    ((∀ l ∈ ls, isThrownR (harvestNodes D l ctx b) = false) →
     (∃ l ∈ ls, isProm (harvestNodes D l ctx b) = true) →
     ∃ t out evs, harvestNodes D (ofListN ls) ctx b = .promise t out evs) := by
  intro D ls ctx b
  constructor
  · intro t vs evs h
    have hchar : vs = ofListN (ls.map (fun l => resVal (harvestNodes D l ctx b))) := by
      cases ls with
      | nil => simp [ofListN, harvestNodes, harvestGo, arrFinish] at h
      | cons l0 ls0 =>
        simp only [ofListN] at h
        cases hg : harvestGo D (.arrCons l0 (ofListN ls0)) ctx b with
        | thrownG e => simp [harvestNodes, hg, arrFinish] at h
        | vals vs0 =>
          simp [harvestNodes, hg, arrFinish] at h
          by_cases hc : vs0 = Node.arrCons l0 (ofListN ls0) <;> simp [hc] at h
        | prom t2 o2 e2 =>
          simp [harvestNodes, hg, arrFinish] at h
          have := (go_char D ctx b (l0 :: ls0)).2 t2 vs e2
          simp only [ofListN] at this
          exact this (by rw [hg, h.2.1])
    subst hchar
    rw [toListN_ofListN]
    refine ⟨by simp, ?_⟩
    intro i h1 h2
    simp
  · intro hnt hex
    obtain ⟨t, out, evs, hg⟩ := go_defers D ctx b ls hnt hex
    cases ls with
    | nil => simp at hex
    | cons l0 ls0 =>
      refine ⟨t, out, evs, ?_⟩
      simp only [ofListN] at hg ⊢
      simp [harvestNodes, hg, arrFinish]

/-- Witness for C4 at a concrete two-element array (one deferred element,
one immediate element): the whole resolution defers, and position 1 of
the resolved array holds the resolved value of input element 1. -/
theorem c4_join_preserves_positions_witness :
    (toListN (Node.arrCons (Node.scalar (JVal.str "x"))
        (Node.arrCons (Node.scalar (JVal.num 9)) Node.arrNil))).get ⟨1, by decide⟩
      = resVal (harvestNodes D0 (c4list.get ⟨1, by decide⟩) [] false) ∧
    (∃ t out evs, harvestNodes D0 (ofListN c4list) [] false = .promise t out evs) := by
  constructor
  · refine ((c4_join_preserves_positions D0 c4list [] false).1 1
      (Node.arrCons (Node.scalar (JVal.str "x"))
        (Node.arrCons (Node.scalar (JVal.num 9)) Node.arrNil)) [] ?_).2 1 (by decide) (by decide)
    simp [c4list, ofListN, harvestNodes, harvestNode, harvestGo, arrFinish, Except.map]
  · refine (c4_join_preserves_positions D0 c4list [] false).2 ?_ ?_
    · intro l hl
      simp only [c4list, List.mem_cons, List.not_mem_nil, or_false] at hl
      rcases hl with rfl | rfl <;> simp [harvestNodes, harvestNode, isThrownR]
    · refine ⟨Node.asyncComp 1 (Node.scalar (JVal.str "x")) (Node.scalar JVal.undef), ?_, ?_⟩
      · simp [c4list]
      · simp [harvestNodes, harvestNode, isProm]

/-- C5 counterexample.  The claim states that seed entries appear in
depth-first encounter order.  At a concrete tree whose two sibling
asynchronous components settle in reverse encounter order (delays 2 and
1), the collected seed list holds the second-encountered component first:
insertion order is settlement order, not encounter order. -/
theorem c5_seed_order_counterexample :
    (harvest D0 seedTree true).outcome =
      .ok (.seedList [⟨seedTreeB, Node.scalar (JVal.str "b")⟩,
        ⟨seedTreeA, Node.scalar (JVal.str "a")⟩]) ∧
    [Seed.mk seedTreeB (Node.scalar (JVal.str "b")),
      Seed.mk seedTreeA (Node.scalar (JVal.str "a"))] ≠
      [Seed.mk seedTreeA (Node.scalar (JVal.str "a")),
        Seed.mk seedTreeB (Node.scalar (JVal.str "b"))] := by
  constructor
  · simp [harvest, harvestNode, harvestNodes, harvestGo, seedTree, seedTreeA, seedTreeB,
      elemFinish, arrFinish, allPair, mergeEvs, shiftEvs, nullN, Except.map]
  · simp [seedTreeA, seedTreeB]

/-- C5 amended.  harvest with seed collection resolves to the seed list
instead of the resolved tree, with one entry per component resolution
that was deferred, each entry recording the component node (its type and
resolved props) and the settled rendering; the entries appear in the
order the continuations push them, which is settlement order of the
asynchronous renders (non-decreasing settlement time, ties in encounter
order), not depth-first encounter order; trees without asynchronous
renderings contribute no entries. -/
theorem c5_seeds_settlement_order : ∀ (D : Nat → JVal) (n : Node),
    sortedEvs (seedEvents D n) = true ∧
    (∀ v, harvestNode D n [] true = .now v →
      (harvest D n true).outcome = .ok (.seedList [])) ∧
    (∀ t v evs, harvestNode D n [] true = .promise t (.ok v) evs →
      (harvest D n true).outcome = .ok (.seedList (evs.map Prod.snd)) ∧
      evs = seedEvents D n) ∧
    (asyncFree n = true → seedEvents D n = []) := by
  intro D n
  refine ⟨?_, ?_, ?_, ?_⟩
  · unfold seedEvents
    cases h : harvestNode D n [] true with
    | now v => rfl
    | thrown e => rfl
    | promise t o evs => exact (sorted_all D n [] true).1 t o evs h
  · intro v h; simp [harvest, h]
  · intro t v evs h
    refine ⟨by simp [harvest, h], ?_⟩
    unfold seedEvents
    rw [h]
  · intro ha
    unfold seedEvents
    cases h : harvestNode D n [] true with
    | now v => rfl
    | thrown e => rfl
    | promise t o evs =>
      exact absurd h ((asyncFree_noProm D n [] true ha).1 t o evs)

/-- Witness for C5 amended: at the concrete reverse-delay tree the
outcome in seed mode is the settlement-ordered seed list, and a tree
without asynchronous components yields no seed events. -/
theorem c5_seeds_settlement_order_witness :
    (harvest D0 seedTree true).outcome = .ok (.seedList
      ([(1, Seed.mk seedTreeB (Node.scalar (JVal.str "b"))),
        (2, Seed.mk seedTreeA (Node.scalar (JVal.str "a")))].map Prod.snd)) ∧
    seedEvents D0 (Node.tagElem "p" (Node.scalar (JVal.str "x"))) = [] := by
  constructor
  · exact ((c5_seeds_settlement_order D0 seedTree).2.2.1 2 (Node.scalar JVal.jnull)
      [(1, Seed.mk seedTreeB (Node.scalar (JVal.str "b"))),
       (2, Seed.mk seedTreeA (Node.scalar (JVal.str "a")))]
      (by simp [seedTree, seedTreeA, seedTreeB, harvestNode, harvestNodes, harvestGo,
        elemFinish, arrFinish, allPair, mergeEvs, shiftEvs, nullN, Except.map])).1
  · exact (c5_seeds_settlement_order D0
      (Node.tagElem "p" (Node.scalar (JVal.str "x")))).2.2.2 (by decide)

/-- C6.  A component-free tree (scalars, well-formed child arrays and
nonempty-tag host elements only, with a non-array root) harvested without
seed collection resolves to the very same tree value, both at the level
of harvestNode and of the top-level harvest; and for any host element
whose children resolution returns the identical children value, the
original node itself is returned. -/
theorem c6_identity_preserved (D : Nat → JVal) :
    (∀ n ctx, cfree n = true → isArrN n = false →
      harvestNode D n ctx false = .now n ∧
      (harvest D n false).outcome = .ok (.tree n)) ∧
    (∀ tag ch ctx, ¬ tag = "" → harvestNodes D ch ctx false = .now ch →
      harvestNode D (.tagElem tag ch) ctx false = .now (.tagElem tag ch)) := by
  constructor
  · intro n ctx hc ha
    refine ⟨(cfree_eval D n hc ctx).1 ha, ?_⟩
    have h0 := (cfree_eval D n hc []).1 ha
    simp [harvest, h0]
  · intro tag ch ctx ht h
    simp [harvestNode, if_neg ht, h, elemFinish]

/-- Witness for C6 at a concrete component-free tree and a concrete
unchanged-children host element. -/
theorem c6_identity_preserved_witness :
    harvestNode D0 c6tree [] false = .now c6tree ∧
    (harvest D0 c6tree false).outcome = .ok (.tree c6tree) ∧
    harvestNode D0 (Node.tagElem "q" (Node.scalar (JVal.num 3))) [] false
      = .now (Node.tagElem "q" (Node.scalar (JVal.num 3))) := by
  refine ⟨((c6_identity_preserved D0).1 c6tree [] (by decide) (by decide)).1,
    ((c6_identity_preserved D0).1 c6tree [] (by decide) (by decide)).2, ?_⟩
  exact (c6_identity_preserved D0).2 "q" (Node.scalar (JVal.num 3)) [] (by decide)
    (by simp [harvestNodes, harvestNode])

/-- C7.  For a class component declaring both a static
derive-state-from-props function and a will-mount method, only the
derived result is applied: no will-mount method runs, the final state is
the derived result merged over the initial state in a fresh object,
derived keys read their derived values and other initial keys are
retained. -/
theorem c7_derived_state_precedence : ∀ (cls : ClassSpec) (props : SMap) (D : Nat → JVal)
    (ctxs : List Binding),
    cls.hasGdsfp = true →
    (cls.cwm ≠ none ∨ cls.cwmUnsafe ≠ none) →
    (cls.initState.map Prod.fst).Nodup →
    ((cls.gdsfp props cls.initState).map Prod.fst).Nodup →
    (renderClassComponent cls props D ctxs).wmInvoked = false ∧
    (renderClassComponent cls props D ctxs).state
      = assignM (assignM [] cls.initState) (cls.gdsfp props cls.initState) ∧
    (∀ k, hasKeyM (cls.gdsfp props cls.initState) k = true →
      jsGetM (renderClassComponent cls props D ctxs).state k
        = jsGetM (cls.gdsfp props cls.initState) k) ∧
    (∀ k, hasKeyM (cls.gdsfp props cls.initState) k = false →
      jsGetM (renderClassComponent cls props D ctxs).state k = jsGetM cls.initState k) := by
  intro cls props D ctxs hg _ hndi hndd
  have hst : (renderClassComponent cls props D ctxs).state
      = assignM (assignM [] cls.initState) (cls.gdsfp props cls.initState) := by
    simp [renderClassComponent, hg]
  have hwm : (renderClassComponent cls props D ctxs).wmInvoked = false := by
    simp [renderClassComponent, hg]
  refine ⟨hwm, hst, ?_, ?_⟩
  · intro k hk
    rw [hst, jsGetM_assignM_present _ _ k hndd hk]
  · intro k hk
    rw [hst, jsGetM_assignM_absent _ _ k hk, jsGetM_assignM_nil _ k hndi]

/-- Witness for C7 at a concrete class: the will-mount method is skipped,
the derived key overrides and the untouched key is retained. -/
theorem c7_derived_state_precedence_witness :
    (renderClassComponent c7cls [] D0 []).wmInvoked = false ∧
    jsGetM (renderClassComponent c7cls [] D0 []).state "cool" = JVal.str "Yes" ∧
    jsGetM (renderClassComponent c7cls [] D0 []).state "keep" = JVal.num 1 := by
  have h := c7_derived_state_precedence c7cls [] D0 [] rfl (Or.inl (by decide))
    (by decide) (by decide)
  refine ⟨h.1, ?_, ?_⟩
  · exact (h.2.2.1 "cool" (by decide)).trans (by decide)
  · exact (h.2.2.2 "keep" (by decide)).trans (by decide)

/-- C8.  One top-level harvest call sets the process-wide harvesting flag
on entry and the flag is false after the returned future settles, on the
success path and on the failure path alike. -/
theorem c8_flag_reset_both_paths : ∀ (D : Nat → JVal) (n : Node) (s : Bool),
    (harvest D n s).flagDuring = true ∧ (harvest D n s).flagFinal = false := by
  intro D n s
  cases h : harvestNode D n [] s with
  | now v => simp [harvest, h]
  | thrown e => simp [harvest, h]
  | promise t o evs => cases o <;> simp [harvest, h]

/-- C9 counterexample.  The claim states that every composite node whose
type resolves to no known kind yields null.  A node whose type is truthy
but unrecognised is classified otherTy, yet harvestNode returns the node
itself (through the host-element branch), not null. -/
theorem c9_truthy_unknown_counterexample :
    nodeTypeOf (Node.badTruthy (Node.scalar JVal.undef)) = NodeTy.otherTy ∧
    harvestNode D0 (Node.badTruthy (Node.scalar JVal.undef)) [] false =
      .now (Node.badTruthy (Node.scalar JVal.undef)) ∧
    HRes.now (Node.badTruthy (Node.scalar JVal.undef)) ≠ HRes.now nullN := by
  refine ⟨rfl, ?_, by simp [nullN]⟩
  simp [harvestNode, harvestNodes, elemFinish]

/-- C9 amended.  A composite node whose resolved type is falsy yields
null, without raising an error; a composite node with a truthy but
unrecognised type is not treated as malformed — it is processed exactly
like a host element (children harvested, node preserved or cloned),
likewise without raising an error of its own. -/
theorem c9_falsy_null_amended : ∀ (D : Nat → JVal) (n : Node) (ctx : List Binding) (b : Bool),
    composite n = true → nodeTypeOf n = NodeTy.falsyTy →
    (harvestNode D n ctx b = .now nullN ∧
     ∀ ch, harvestNode D (Node.badTruthy ch) ctx b =
       elemFinish b (Node.badTruthy ch) Node.badTruthy ch (harvestNodes D ch ctx b)) := by
  intro D n ctx b hc ht
  constructor
  · cases n with
    | scalar v => simp [composite] at hc
    | arrNil => simp [harvestNode]
    | arrCons h t => simp [harvestNode]
    | badFalsy ch => simp [harvestNode]
    | tagElem s ch =>
      by_cases hs : s = ""
      · simp [harvestNode, hs]
      · simp [nodeTypeOf, hs] at ht
    | syncComp o ch => simp [nodeTypeOf] at ht
    | memoComp o ch => simp [nodeTypeOf] at ht
    | asyncComp d o ch => simp [nodeTypeOf] at ht
    | throwComp e ch => simp [nodeTypeOf] at ht
    | rejectComp d e ch => simp [nodeTypeOf] at ht
    | provider i v ch => simp [nodeTypeOf] at ht
    | consumer i => simp [nodeTypeOf] at ht
    | badTruthy ch => simp [nodeTypeOf] at ht
  · intro ch; simp [harvestNode]

/-- Witness for C9 amended: a falsy-typed composite node yields null, and
a truthy-unknown node follows the host-element dispatch. -/
theorem c9_falsy_null_amended_witness :
    harvestNode D0 (Node.badFalsy (Node.scalar JVal.undef)) [] false = .now nullN ∧
    harvestNode D0 (Node.badTruthy Node.arrNil) [] true =
      elemFinish true (Node.badTruthy Node.arrNil) Node.badTruthy Node.arrNil
        (harvestNodes D0 Node.arrNil [] true) := by
  refine ⟨(c9_falsy_null_amended D0 (Node.badFalsy (Node.scalar JVal.undef)) [] false
    rfl rfl).1, ?_⟩
  exact (c9_falsy_null_amended D0 (Node.badFalsy (Node.scalar JVal.undef)) [] true
    rfl rfl).2 Node.arrNil

/-- C10.  The resolved props read every key as the node value when that
value is not exactly undefined (null included), and as the declared
default when the node value is exactly undefined — whether the key is
absent or explicitly supplied as undefined; the nested content is kept as
the read-only children value. -/
theorem c10_default_fill_undefined : ∀ (np : SMap) (ch : Node) (dp : SMap) (k : String),
    (np.map Prod.fst).Nodup → (dp.map Prod.fst).Nodup →
    hasKeyM dp "children" = false →
    (jsGetM (getNodeProps np ch dp).attrs k
       = if jsGetM np k = JVal.undef then jsGetM dp k else jsGetM np k) ∧
    (getNodeProps np ch dp).children = ch := by
  intro np ch dp k h1 h2 _
  constructor
  · show jsGetM (dp.foldl _ (assignM [] np)) k = _
    rw [defaults_fold_get dp (assignM [] np) k h2, jsGetM_assignM_nil np k h1]
  · rfl

/-- Witness for C10 at concrete props: a null attribute is kept as null,
an explicitly undefined attribute takes its default, an absent attribute
takes its default, and the children value is preserved. -/
theorem c10_default_fill_undefined_witness :
    jsGetM (getNodeProps c10np (Node.scalar JVal.undef) c10dp).attrs "a" = JVal.jnull ∧
    jsGetM (getNodeProps c10np (Node.scalar JVal.undef) c10dp).attrs "b" = JVal.str "B" ∧
    jsGetM (getNodeProps c10np (Node.scalar JVal.undef) c10dp).attrs "c" = JVal.str "C" ∧
    (getNodeProps c10np (Node.scalar JVal.undef) c10dp).children = Node.scalar JVal.undef := by
  refine ⟨?_, ?_, ?_, ?_⟩
  · exact ((c10_default_fill_undefined c10np (Node.scalar JVal.undef) c10dp "a"
      (by decide) (by decide) (by decide)).1).trans (by decide)
  · exact ((c10_default_fill_undefined c10np (Node.scalar JVal.undef) c10dp "b"
      (by decide) (by decide) (by decide)).1).trans (by decide)
  · exact ((c10_default_fill_undefined c10np (Node.scalar JVal.undef) c10dp "c"
      (by decide) (by decide) (by decide)).1).trans (by decide)
  · exact (c10_default_fill_undefined c10np (Node.scalar JVal.undef) c10dp "a"
      (by decide) (by decide) (by decide)).2

end RelaksHarvest
